import Mathlib

/-!
Shallow embedding of the libipld block store core:
CID / multihash / IPLD value model, the block validator and codec dispatch
(src/src/block.rs), the reference-counted in-memory store (src/src/mem.rs),
the GC closure (src/src/gc.rs) and the typed cache commit path
(src/src/cache.rs).  Machine integers are modelled as Nat/Int; Rust
HashMaps are modelled as association lists keyed by decidable equality;
fallible operations return Except and a Rust panic is modelled as
Option.none.
-/

/-- A multihash: a hash-algorithm code together with the digest bytes. -/
structure Multihash where
  code : Nat
  digest : List Nat
deriving DecidableEq, Repr

/-- A content identifier: version, codec id and multihash. -/
structure Cid where
  version : Nat
  codec : Nat
  hash : Multihash
deriving DecidableEq, Repr

/-- The raw codec id (0x55). -/
def RAW_CODEC : Nat := 0x55

/-- The DagCBOR codec id (0x71). -/
def DAG_CBOR_CODEC : Nat := 0x71

/-- The DagJSON codec id (0x0129). -/
def DAG_JSON_CODEC : Nat := 0x0129

/-- The IPLD value model: tagged union of primitives, containers and links.
The float case carries the f64 bit pattern; no claim inspects floats. -/
inductive Ipld where
  | null : Ipld
  | bool (b : Bool) : Ipld
  | integer (i : Int) : Ipld
  | float (bits : Nat) : Ipld
  | string (s : String) : Ipld
  | bytes (b : List Nat) : Ipld
  | list (l : List Ipld) : Ipld
  | map (m : List (String × Ipld)) : Ipld
  | link (cid : Cid) : Ipld

mutual

/-- Pre-order collection of the link CIDs of an ipld value into a
duplicate-free accumulator, mirroring gc.rs references: iterate the value
pre-order and insert every Link into a set. -/
def collectLinks : Ipld → List Cid → List Cid
  | Ipld.null, acc => acc
  | Ipld.bool _, acc => acc
  | Ipld.integer _, acc => acc
  | Ipld.float _, acc => acc
  | Ipld.string _, acc => acc
  | Ipld.bytes _, acc => acc
  | Ipld.list l, acc => collectLinksList l acc
  | Ipld.map m, acc => collectLinksMap m acc
  | Ipld.link c, acc => if c ∈ acc then acc else acc ++ [c]

/-- Pre-order link collection over a list of ipld values. -/
def collectLinksList : List Ipld → List Cid → List Cid
  | [], acc => acc
  | i :: rest, acc => collectLinksList rest (collectLinks i acc)

/-- Pre-order link collection over the values of an ipld map. -/
def collectLinksMap : List (String × Ipld) → List Cid → List Cid
  | [], acc => acc
  | (_, i) :: rest, acc => collectLinksMap rest (collectLinks i acc)

end

/-- The set of CIDs appearing as links anywhere in the value
(gc.rs, references). -/
def references (i : Ipld) : List Cid := collectLinks i []

/-- Block errors (base/src/error.rs, BlockError). -/
inductive BlockError where
  | blockToLarge (n : Nat)
  | invalidHash (h : Multihash)
  | unsupportedCodec (c : Nat)
  | unsupportedMultihash (c : Nat)
  | codecError
  | invalidLink
deriving DecidableEq, Repr

/-- Store errors (StoreError: the mem.rs surface). -/
inductive StoreError where
  | blockNotFound (c : Cid)
  | emptyBatch
  | other (e : BlockError)
deriving DecidableEq, Repr

deriving instance DecidableEq for Except

/-- Association-list lookup: first binding of the key wins. -/
def lookupA {K V : Type} [DecidableEq K] : List (K × V) → K → Option V
  | [], _ => none
  | (k, v) :: rest, key => if k = key then some v else lookupA rest key

/-- Association-list removal of every binding of the key. -/
def removeA {K V : Type} [DecidableEq K] (key : K) (l : List (K × V)) :
    List (K × V) :=
  l.filter (fun kv => decide (kv.1 ≠ key))

/-- Association-list insertion, replacing any previous binding. -/
def insertA {K V : Type} [DecidableEq K] (key : K) (v : V)
    (l : List (K × V)) : List (K × V) :=
  (key, v) :: removeA key l

/-- Codec dispatch (block.rs decode_ipld): DagCBOR decodes through the cbor
codec, Raw yields the bytes, any other codec id is UnsupportedCodec.  The
concrete cbor codec is external to the repository and is a parameter. -/
def decode_ipld (cbor : List Nat → Option Ipld) (cid : Cid)
    (data : List Nat) : Except BlockError Ipld :=
  if cid.codec = DAG_CBOR_CODEC then
    match cbor data with
    | some i => Except.ok i
    | none => Except.error BlockError.codecError
  else if cid.codec = RAW_CODEC then Except.ok (Ipld.bytes data)
  else Except.error (BlockError.unsupportedCodec cid.codec)

/-- Block validation (block.rs validate): size bound, then recompute the
digest under the CID's declared algorithm and compare with the CID's
multihash.  The multihash function table is external and is a parameter
(`digest code data` is the multihash of `data` under algorithm `code`). -/
def validate (digest : Nat → List Nat → Multihash) (maxBlockSize : Nat)
    (cid : Cid) (data : List Nat) : Except BlockError Unit :=
  if data.length > maxBlockSize then
    Except.error (BlockError.blockToLarge data.length)
  else if digest cid.hash.code data ≠ cid.hash then
    Except.error (BlockError.invalidHash (digest cid.hash.code data))
  else Except.ok ()

/-- A block: a CID together with the data bytes. -/
structure Block where
  cid : Cid
  data : List Nat
deriving DecidableEq, Repr

/-- The inner state of MemStore (mem.rs InnerStore): blocks, outbound
reference lists, inbound referer counts (isize) and pin counts (usize). -/
structure InnerStore where
  blocks : List (Cid × List Nat)
  refs : List (Cid × List Cid)
  referers : List (Cid × Int)
  pins : List (Cid × Nat)
deriving DecidableEq, Repr

/-- The empty inner store (InnerStore::default). -/
def InnerStore.empty : InnerStore := ⟨[], [], [], []⟩

/-- mem.rs InnerStore::get: the block bytes, or BlockNotFound. -/
def InnerStore.get (st : InnerStore) (cid : Cid) :
    Except StoreError (List Nat) :=
  match lookupA st.blocks cid with
  | some d => Except.ok d
  | none => Except.error (StoreError.blockNotFound cid)

/-- mem.rs InnerStore::add_referer: adjust the referer count by n,
treating a missing entry as 0. -/
def InnerStore.add_referer (st : InnerStore) (cid : Cid) (n : Int) :
    InnerStore :=
  { st with
    referers :=
      insertA cid ((lookupA st.referers cid).getD 0 + n) st.referers }

/-- mem.rs InnerStore::insert_block: idempotent on present blocks,
otherwise decode, count a referer for every link, record the reference
list and the bytes.  A decode failure leaves the state unchanged. -/
def InnerStore.insert_block (cbor : List Nat → Option Ipld)
    (st : InnerStore) (cid : Cid) (data : List Nat) :
    Except StoreError InnerStore :=
  if (lookupA st.blocks cid).isSome then Except.ok st
  else
    match decode_ipld cbor cid data with
    | Except.error e => Except.error (StoreError.other e)
    | Except.ok ipld =>
      let refs := references ipld
      let st1 := refs.foldl (fun s c => InnerStore.add_referer s c 1) st
      Except.ok
        { st1 with
          refs := insertA cid refs st1.refs,
          blocks := insertA cid data st1.blocks }

/-- mem.rs InnerStore::pin: increment the pin count, from 0 if absent. -/
def InnerStore.pin (st : InnerStore) (cid : Cid) : InnerStore :=
  { st with pins := insertA cid ((lookupA st.pins cid).getD 0 + 1) st.pins }

/-- mem.rs InnerStore::insert: integrate the block, then pin it. -/
def InnerStore.insert (cbor : List Nat → Option Ipld) (st : InnerStore)
    (cid : Cid) (data : List Nat) : Except StoreError InnerStore :=
  (InnerStore.insert_block cbor st cid data).map
    (fun st1 => InnerStore.pin st1 cid)

/-- Loop of mem.rs InnerStore::insert_batch: insert_block each block in
order, remembering the last CID; an error stops the loop and returns the
state reached so far. -/
def insertBatchGo (cbor : List Nat → Option Ipld) (st : InnerStore)
    (last : Option Cid) : List Block → InnerStore × Except StoreError Cid
  | [] =>
    (st, match last with
         | some c => Except.ok c
         | none => Except.error StoreError.emptyBatch)
  | b :: rest =>
    match InnerStore.insert_block cbor st b.cid b.data with
    | Except.error e => (st, Except.error e)
    | Except.ok st1 => insertBatchGo cbor st1 (some b.cid) rest

/-- mem.rs InnerStore::insert_batch. -/
def InnerStore.insert_batch (cbor : List Nat → Option Ipld)
    (st : InnerStore) (batch : List Block) :
    InnerStore × Except StoreError Cid :=
  insertBatchGo cbor st none batch

/-- Fuel-indexed embedding of mem.rs InnerStore::remove.  The Rust
recursion terminates because the refs map shrinks at every unfolding; the
fuel is set above that bound by InnerStore.remove.  The value none models
a Rust panic: the source unwraps the refs entry of the removed CID, which
panics when that entry is absent. -/
def removeGo (fuel : Nat) (st : InnerStore) (cid : Cid) :
    Option InnerStore :=
  match fuel with
  | 0 => none
  | Nat.succ n =>
    let pinsv := (lookupA st.pins cid).getD 0
    let referersv := (lookupA st.referers cid).getD 0
    if referersv < 1 ∧ pinsv < 1 then
      match lookupA st.refs cid with
      | none => none
      | some refsList =>
        let st1 :=
          { st with
            blocks := removeA cid st.blocks,
            refs := removeA cid st.refs }
        refsList.foldlM
          (fun s c => removeGo n (InnerStore.add_referer s c (-1)) c) st1
    else some st

/-- mem.rs InnerStore::remove, with enough fuel for the refs map. -/
def InnerStore.remove (st : InnerStore) (cid : Cid) : Option InnerStore :=
  removeGo (st.refs.length + 1) st cid

/-- mem.rs InnerStore::unpin: a missing pin entry is a no-op; a pin count
above 1 is decremented; otherwise the entry is dropped and removal runs.
The value none models a panic inside remove. -/
def InnerStore.unpin (st : InnerStore) (cid : Cid) : Option InnerStore :=
  match lookupA st.pins cid with
  | none => some st
  | some pinsv =>
    let st1 := { st with pins := removeA cid st.pins }
    if pinsv > 1 then
      some { st1 with pins := insertA cid (pinsv - 1) st1.pins }
    else InnerStore.remove st1 cid

/-- mem.rs MemStore: the inner store plus the alias map. -/
structure MemStore where
  inner : InnerStore
  aliases : List (List Nat × Cid)
deriving DecidableEq, Repr

/-- A fresh MemStore. -/
def MemStore.empty : MemStore := ⟨InnerStore.empty, []⟩

/-- mem.rs AliasStore::alias for MemStore: insert the binding into the
alias map.  The inner store — pins included — is untouched. -/
def MemStore.aliasOp (s : MemStore) (name : List Nat) (cid : Cid) :
    MemStore :=
  { s with aliases := insertA name cid s.aliases }

/-- mem.rs AliasStore::unalias for MemStore: drop the binding. -/
def MemStore.unaliasOp (s : MemStore) (name : List Nat) : MemStore :=
  { s with aliases := removeA name s.aliases }

/-- mem.rs AliasStore::resolve for MemStore: look the binding up. -/
def MemStore.resolve (s : MemStore) (name : List Nat) : Option Cid :=
  lookupA s.aliases name

/-- The operations a client can run against a MemStore; pin is the
InnerStore-level pin. -/
inductive Op where
  | insert (cid : Cid) (data : List Nat)
  | insertBatch (batch : List Block)
  | pin (cid : Cid)
  | unpin (cid : Cid)
  | aliasOp (name : List Nat) (cid : Cid)
  | unalias (name : List Nat)
deriving Repr

/-- One step of the store state machine.  An operation that returns an
error leaves the state as the source leaves its struct; none models a
panic. -/
def runOp (cbor : List Nat → Option Ipld) (s : MemStore) :
    Op → Option MemStore
  | Op.insert cid data =>
    match InnerStore.insert cbor s.inner cid data with
    | Except.ok st1 => some { s with inner := st1 }
    | Except.error _ => some s
  | Op.insertBatch batch =>
    some { s with inner := (InnerStore.insert_batch cbor s.inner batch).1 }
  | Op.pin cid => some { s with inner := InnerStore.pin s.inner cid }
  | Op.unpin cid =>
    (InnerStore.unpin s.inner cid).map (fun st1 => { s with inner := st1 })
  | Op.aliasOp name cid => some (MemStore.aliasOp s name cid)
  | Op.unalias name => some (MemStore.unaliasOp s name)

/-- Run a sequence of operations; a panic aborts the run. -/
def run (cbor : List Nat → Option Ipld) (s : MemStore) :
    List Op → Option MemStore
  | [] => some s
  | op :: rest =>
    match runOp cbor s op with
    | none => none
    | some s1 => run cbor s1 rest

/-! ### Concrete fixtures used by witnesses and counterexamples -/

/-- A multihash table for concrete runs: the digest is the data itself. -/
def digestId : Nat → List Nat → Multihash := fun code d => ⟨code, d⟩

/-- A concrete cbor codec for the scenario runs: byte 0 decodes to a
map with no links, bytes 1 and 2 to maps holding one link to cidA. -/
def cborTest : List Nat → Option Ipld := fun d =>
  if d = [0] then some (Ipld.map [("a", Ipld.list [])])
  else if d = [1] then
    some (Ipld.map [("b", Ipld.list [Ipld.link ⟨1, DAG_CBOR_CODEC, ⟨0, [10]⟩⟩])])
  else if d = [2] then
    some (Ipld.map [("c", Ipld.list [Ipld.link ⟨1, DAG_CBOR_CODEC, ⟨0, [10]⟩⟩])])
  else none

/-- A cbor codec that always fails. -/
def cborNone : List Nat → Option Ipld := fun _ => none

/-- Concrete DagCBOR cid a of the scenario runs. -/
def cidA : Cid := ⟨1, DAG_CBOR_CODEC, ⟨0, [10]⟩⟩

/-- Concrete DagCBOR cid b of the scenario runs. -/
def cidB : Cid := ⟨1, DAG_CBOR_CODEC, ⟨0, [11]⟩⟩

/-- Concrete DagCBOR cid c of the scenario runs. -/
def cidC : Cid := ⟨1, DAG_CBOR_CODEC, ⟨0, [12]⟩⟩

/-- A raw-codec cid whose declared digest matches the data [7, 8] under
the identity digest table. -/
def cidRawOk : Cid := ⟨1, RAW_CODEC, ⟨0, [7, 8]⟩⟩

/-- A raw-codec cid whose declared digest does not match the data [1, 2]
under the identity digest table. -/
def cidRawBad : Cid := ⟨1, RAW_CODEC, ⟨0, [9]⟩⟩

/-- A cid with an unregistered codec id. -/
def cidUnknown : Cid := ⟨1, 0, ⟨0, [0]⟩⟩

/-! ### Association-list lemmas -/

/-- Looking up the freshly inserted key yields the inserted value. -/
theorem lookupA_insertA_self {K V : Type} [DecidableEq K] (k : K) (v : V)
    (l : List (K × V)) : lookupA (insertA k v l) k = some v := by
  simp [insertA, lookupA]

/-- Removing a key then looking it up yields none. -/
theorem lookupA_removeA_self {K V : Type} [DecidableEq K] (k : K)
    (l : List (K × V)) : lookupA (removeA k l) k = none := by
  induction l with
  | nil => rfl
  | cons kv rest ih =>
    by_cases h : kv.1 = k
    · simpa [removeA, List.filter, h] using ih
    · simpa [removeA, lookupA, List.filter, h] using ih

/-- Removing another key does not change a lookup. -/
theorem lookupA_removeA_ne {K V : Type} [DecidableEq K] {k k' : K}
    (l : List (K × V)) (h : k' ≠ k) :
    lookupA (removeA k l) k' = lookupA l k' := by
  induction l with
  | nil => rfl
  | cons kv rest ih =>
    simp only [removeA, ne_eq, decide_not, List.filter_cons] at ih ⊢
    by_cases h1 : kv.1 = k
    · have hkk' : ¬ k = k' := fun hc => h hc.symm
      simp [h1, lookupA, hkk', ih]
    · simp [h1, lookupA, ih]

/-- Inserting under another key does not change a lookup. -/
theorem lookupA_insertA_ne {K V : Type} [DecidableEq K] {k k' : K} (v : V)
    (l : List (K × V)) (h : k' ≠ k) :
    lookupA (insertA k v l) k' = lookupA l k' := by
  have hkk : ¬ k = k' := fun hc => h hc.symm
  simp only [insertA, lookupA, hkk, if_false]
  exact lookupA_removeA_ne l h

/-- A successful lookup survives key removal of another key, in the
membership direction needed for block-map monotonicity. -/
theorem lookupA_removeA_subset {K V : Type} [DecidableEq K] {k k' : K}
    {v : V} (l : List (K × V))
    (h : lookupA (removeA k l) k' = some v) : lookupA l k' = some v := by
  by_cases hk : k' = k
  · rw [hk, lookupA_removeA_self] at h
    exact absurd h (by simp)
  · rwa [lookupA_removeA_ne l hk] at h

/-! ### InnerStore helper lemmas -/

/-- The referer-count fold of insert_block touches only the referers map. -/
theorem foldl_add_referer_parts (l : List Cid) (st : InnerStore) :
    (l.foldl (fun s c => InnerStore.add_referer s c 1) st).blocks = st.blocks ∧
    (l.foldl (fun s c => InnerStore.add_referer s c 1) st).refs = st.refs ∧
    (l.foldl (fun s c => InnerStore.add_referer s c 1) st).pins = st.pins := by
  induction l generalizing st with
  | nil => exact ⟨rfl, rfl, rfl⟩
  | cons c rest ih =>
    simpa [List.foldl_cons, InnerStore.add_referer] using
      ih (InnerStore.add_referer st c 1)

/-- insert_block on a present block is the identity. -/
theorem insert_block_present (cbor : List Nat → Option Ipld)
    (st : InnerStore) (cid : Cid) (data : List Nat)
    (h : (lookupA st.blocks cid).isSome) :
    InnerStore.insert_block cbor st cid data = Except.ok st := by
  simp [InnerStore.insert_block, h]

/-- A successful insert_block leaves the block present. -/
theorem insert_block_mem (cbor : List Nat → Option Ipld)
    {st st' : InnerStore} {cid : Cid} {data : List Nat}
    (h : InnerStore.insert_block cbor st cid data = Except.ok st') :
    (lookupA st'.blocks cid).isSome := by
  by_cases hp : (lookupA st.blocks cid).isSome
  · rw [insert_block_present cbor st cid data hp] at h
    cases h
    exact hp
  · simp only [InnerStore.insert_block, hp, if_false] at h
    cases hd : decode_ipld cbor cid data with
    | error e => rw [hd] at h; cases h
    | ok ipld =>
      rw [hd] at h
      cases h
      simp [lookupA_insertA_self]

/-- insert_block never changes the pin map. -/
theorem insert_block_pins (cbor : List Nat → Option Ipld)
    {st st' : InnerStore} {cid : Cid} {data : List Nat}
    (h : InnerStore.insert_block cbor st cid data = Except.ok st') :
    st'.pins = st.pins := by
  by_cases hp : (lookupA st.blocks cid).isSome
  · rw [insert_block_present cbor st cid data hp] at h
    cases h
    rfl
  · simp only [InnerStore.insert_block, hp, if_false] at h
    cases hd : decode_ipld cbor cid data with
    | error e => rw [hd] at h; cases h
    | ok ipld =>
      rw [hd] at h
      cases h
      exact (foldl_add_referer_parts (references ipld) st).2.2

/-! ### Claim C6 -/

/-- C6: every successful MemStore insert increments the pin count of the
inserted CID by exactly one; when the block is already present the
block-integration step is skipped (bytes, refs and referers written at
most once) and only the pin is added; a pin count above one survives an
unpin with the blocks untouched. -/
theorem C6_insert_always_pins :
    (∀ (cbor : List Nat → Option Ipld) (st st' : InnerStore) (cid : Cid)
        (data : List Nat),
        InnerStore.insert cbor st cid data = Except.ok st' →
        lookupA st'.pins cid = some ((lookupA st.pins cid).getD 0 + 1)) ∧
    (∀ (cbor : List Nat → Option Ipld) (st : InnerStore) (cid : Cid)
        (data : List Nat),
        (lookupA st.blocks cid).isSome →
        InnerStore.insert cbor st cid data =
          Except.ok (InnerStore.pin st cid)) ∧
    (∀ (st : InnerStore) (cid : Cid) (n : Nat),
        lookupA st.pins cid = some n → 1 < n →
        InnerStore.unpin st cid =
          some { st with
                 pins := insertA cid (n - 1) (removeA cid st.pins) }) := by
  refine ⟨?_, ?_, ?_⟩
  · intro cbor st st' cid data h
    cases hres : InnerStore.insert_block cbor st cid data with
    | error e => simp [InnerStore.insert, hres, Except.map] at h
    | ok stm =>
      simp only [InnerStore.insert, hres, Except.map] at h
      cases h
      have hpins := insert_block_pins cbor hres
      simp [InnerStore.pin, lookupA_insertA_self, hpins]
  · intro cbor st cid data h
    simp [InnerStore.insert, insert_block_present cbor st cid data h,
      Except.map]
  · intro st cid n h hn
    simp [InnerStore.unpin, h, hn, Nat.lt_of_succ_lt hn]

/-- A present block with pin count 2 for the C6 witness. -/
def stW : InnerStore :=
  ⟨[(cidRawOk, [7, 8])], [(cidRawOk, [])], [], [(cidRawOk, 2)]⟩

/-- Witness for C6 at a concrete store. -/
theorem C6_insert_always_pins_witness :
    InnerStore.insert cborNone stW cidRawOk [7, 8] =
      Except.ok (InnerStore.pin stW cidRawOk) ∧
    InnerStore.unpin stW cidRawOk =
      some { stW with
             pins := insertA cidRawOk 1 (removeA cidRawOk stW.pins) } :=
  ⟨C6_insert_always_pins.2.1 cborNone stW cidRawOk [7, 8] (by decide),
   C6_insert_always_pins.2.2 stW cidRawOk 2 (by decide) (by decide)⟩

/-! ### Claim C5 -/

/-- C5 counterexample: inserting the same block twice is not equivalent to
inserting it once — the resulting MemStore states differ (the pin count is
2 instead of 1). -/
theorem C5_counterexample :
    run cborTest MemStore.empty [Op.insert cidA [0], Op.insert cidA [0]] ≠
      run cborTest MemStore.empty [Op.insert cidA [0]] := by decide

/-- C5 amended: a second insert of the same (cid, data) leaves blocks,
refs and referers exactly as after the first insert, but increments the
pin count once more. -/
theorem C5_insert_idempotent_modulo_pins :
    ∀ (cbor : List Nat → Option Ipld) (st st1 : InnerStore) (cid : Cid)
      (data : List Nat),
      InnerStore.insert cbor st cid data = Except.ok st1 →
      ∃ st2, InnerStore.insert cbor st1 cid data = Except.ok st2 ∧
        st2.blocks = st1.blocks ∧ st2.refs = st1.refs ∧
        st2.referers = st1.referers ∧
        lookupA st2.pins cid =
          some ((lookupA st1.pins cid).getD 0 + 1) := by
  intro cbor st st1 cid data h
  cases hres : InnerStore.insert_block cbor st cid data with
  | error e => simp [InnerStore.insert, hres, Except.map] at h
  | ok stm =>
    simp only [InnerStore.insert, hres, Except.map] at h
    cases h
    have hmem := insert_block_mem cbor hres
    refine ⟨InnerStore.pin (InnerStore.pin stm cid) cid, ?_, rfl, rfl, rfl,
      ?_⟩
    · simp [InnerStore.insert,
        insert_block_present cbor (InnerStore.pin stm cid) cid data hmem,
        Except.map]
    · simp [InnerStore.pin, lookupA_insertA_self]

/-- The MemStore inner state after one raw insert, for witnesses. -/
def stOne : InnerStore :=
  ⟨[(cidRawOk, [7, 8])], [(cidRawOk, [])], [], [(cidRawOk, 1)]⟩

/-- Witness for C5 amended at a concrete insert. -/
theorem C5_insert_idempotent_modulo_pins_witness :
    ∃ st2, InnerStore.insert cborNone stOne cidRawOk [7, 8] =
        Except.ok st2 ∧
      st2.blocks = stOne.blocks ∧ st2.refs = stOne.refs ∧
      st2.referers = stOne.referers ∧
      lookupA st2.pins cidRawOk =
        some ((lookupA stOne.pins cidRawOk).getD 0 + 1) :=
  C5_insert_idempotent_modulo_pins cborNone InnerStore.empty stOne cidRawOk
    [7, 8] (by decide)

/-! ### Claim C4 -/

/-- C4: evaluating the code at the failing inputs.  Unpinning a CID whose
pin count drops to zero but whose block (hence refs entry) never arrived
panics — the source unwraps the missing refs entry — instead of returning
Ok as a no-op.  The second run reaches the same panic through the public
API: a block referencing a never-inserted CID is inserted and unpinned,
and the cascaded removal unwraps the absent refs entry of the reference. -/
theorem C4_unpin_missing_refs_panics :
    run cborNone MemStore.empty [Op.pin cidRawOk, Op.unpin cidRawOk] =
      none ∧
    run cborTest MemStore.empty [Op.insert cidB [1], Op.unpin cidB] =
      none := by decide

/-! ### Claim C7 -/

/-- Performing the spec's Insert step (insert_block) on each block of a
list in order, failing fast. -/
def seqInsertBlocks (cbor : List Nat → Option Ipld) (st : InnerStore) :
    List Block → Except StoreError InnerStore
  | [] => Except.ok st
  | b :: rest =>
    match InnerStore.insert_block cbor st b.cid b.data with
    | Except.error e => Except.error e
    | Except.ok st1 => seqInsertBlocks cbor st1 rest

/-- The insert_batch loop agrees with the sequential insert_block fold on
successful batches, returning the CID of the last block. -/
theorem insertBatchGo_append (cbor : List Nat → Option Ipld) :
    ∀ (batch : List Block) (st : InnerStore) (lastOpt : Option Cid)
      (lastB : Block) (st' : InnerStore),
      seqInsertBlocks cbor st (batch ++ [lastB]) = Except.ok st' →
      insertBatchGo cbor st lastOpt (batch ++ [lastB]) =
        (st', Except.ok lastB.cid) := by
  intro batch
  induction batch with
  | nil =>
    intro st lastOpt lastB st' h
    simp only [List.nil_append, seqInsertBlocks] at h ⊢
    cases hres : InnerStore.insert_block cbor st lastB.cid lastB.data with
    | error e => rw [hres] at h; cases h
    | ok st1 =>
      rw [hres] at h
      simp only [seqInsertBlocks] at h
      cases h
      simp [insertBatchGo, hres]
  | cons b rest ih =>
    intro st lastOpt lastB st' h
    simp only [List.cons_append, seqInsertBlocks] at h ⊢
    cases hres : InnerStore.insert_block cbor st b.cid b.data with
    | error e => rw [hres] at h; cases h
    | ok st1 =>
      rw [hres] at h
      simp only [insertBatchGo, hres]
      exact ih st1 (some b.cid) lastB st' h

/-- C7 counterexample: a non-empty batch holding one block with an
unregistered codec fails with UnsupportedCodec and returns no CID, so a
non-empty batch does not always return Ok with the last block's CID. -/
theorem C7_counterexample :
    InnerStore.insert_batch cborNone InnerStore.empty [⟨cidUnknown, []⟩] =
      (InnerStore.empty,
        Except.error (StoreError.other (BlockError.unsupportedCodec 0))) ∧
    (InnerStore.insert_batch cborNone InnerStore.empty
        [⟨cidUnknown, []⟩]).2 ≠ Except.ok cidUnknown := by decide

/-- C7 amended: insert_batch performs the Insert step (insert_block, which
does not pin) on each block in order; the empty batch fails with
EmptyBatch leaving the store unchanged; a non-empty batch whose blocks all
integrate successfully returns Ok with the CID of its last block. -/
theorem C7_insert_batch_spec :
    (∀ (cbor : List Nat → Option Ipld) (st : InnerStore),
      InnerStore.insert_batch cbor st [] =
        (st, Except.error StoreError.emptyBatch)) ∧
    (∀ (cbor : List Nat → Option Ipld) (st : InnerStore)
        (batch : List Block) (lastB : Block) (st' : InnerStore),
      seqInsertBlocks cbor st (batch ++ [lastB]) = Except.ok st' →
      InnerStore.insert_batch cbor st (batch ++ [lastB]) =
        (st', Except.ok lastB.cid)) := by
  constructor
  · intro cbor st
    rfl
  · intro cbor st batch lastB st' h
    exact insertBatchGo_append cbor batch st none lastB st' h

/-- Two raw blocks for the C7 witness. -/
def blk1 : Block := ⟨cidRawOk, [7, 8]⟩

/-- Second raw block for the C7 witness. -/
def blk2 : Block := ⟨cidRawBad, [1, 2]⟩

/-- The store state after integrating blk1 then blk2. -/
def stBatch : InnerStore :=
  ⟨[(cidRawBad, [1, 2]), (cidRawOk, [7, 8])],
   [(cidRawBad, []), (cidRawOk, [])], [], []⟩

/-- Witness for C7 at a concrete two-block batch. -/
theorem C7_insert_batch_spec_witness :
    InnerStore.insert_batch cborNone InnerStore.empty [blk1, blk2] =
      (stBatch, Except.ok cidRawBad) :=
  C7_insert_batch_spec.2 cborNone InnerStore.empty [blk1] blk2 stBatch
    (by decide)

/-! ### Claim C8 -/

/-- C8 counterexample: decode_ipld rejects the DagJSON codec id with
UnsupportedCodec even though the claim lists DagJSON among the registered
codecs, whatever the cbor codec does. -/
theorem C8_counterexample :
    decode_ipld (fun _ => some Ipld.null) ⟨1, DAG_JSON_CODEC, ⟨0, []⟩⟩ [] =
      Except.error (BlockError.unsupportedCodec DAG_JSON_CODEC) := by rfl

/-- C8 amended: decode_ipld dispatches on the codec id: Raw yields the
bytes, DagCBOR decodes through the cbor codec, and every other codec id —
DagJSON included — fails with UnsupportedCodec; the function is total, so
it never panics. -/
theorem C8_decode_ipld_dispatch :
    ∀ (cbor : List Nat → Option Ipld) (cid : Cid) (data : List Nat),
      (cid.codec = RAW_CODEC →
        decode_ipld cbor cid data = Except.ok (Ipld.bytes data)) ∧
      (cid.codec = DAG_CBOR_CODEC →
        decode_ipld cbor cid data =
          match cbor data with
          | some i => Except.ok i
          | none => Except.error BlockError.codecError) ∧
      (cid.codec ≠ DAG_CBOR_CODEC → cid.codec ≠ RAW_CODEC →
        decode_ipld cbor cid data =
          Except.error (BlockError.unsupportedCodec cid.codec)) := by
  intro cbor cid data
  refine ⟨?_, ?_, ?_⟩
  · intro h
    simp [decode_ipld, h, RAW_CODEC, DAG_CBOR_CODEC]
  · intro h
    simp [decode_ipld, h]
  · intro h1 h2
    simp [decode_ipld, h1, h2]

/-- Witness for C8 at the raw codec and at an unknown codec. -/
theorem C8_decode_ipld_dispatch_witness :
    decode_ipld cborNone cidRawOk [1] = Except.ok (Ipld.bytes [1]) ∧
    decode_ipld cborNone cidUnknown [1] =
      Except.error (BlockError.unsupportedCodec 0) :=
  ⟨(C8_decode_ipld_dispatch cborNone cidRawOk [1]).1 (by rfl),
   (C8_decode_ipld_dispatch cborNone cidUnknown [1]).2.2 (by decide)
     (by decide)⟩

/-! ### Claim C2 -/

/-- C2 counterexample: after insert(c), alias("root" as [0], c) and a
single unpin(c), the block is gone (BlockNotFound) while the alias still
resolves — the alias did not pin its target, refuting the claim that c
stays retrievable. -/
theorem C2_counterexample :
    (run cborNone MemStore.empty
        [Op.insert cidRawOk [7, 8], Op.aliasOp [0] cidRawOk,
         Op.unpin cidRawOk]).map
        (fun s => (InnerStore.get s.inner cidRawOk,
                   MemStore.resolve s [0])) =
      some (Except.error (StoreError.blockNotFound cidRawOk),
            some cidRawOk) := by decide

/-- C2 amended: MemStore's alias operations only update the alias map:
alias(name, c) binds name to c without touching pins (so nothing is
unpinned when a binding is replaced), unalias(name) drops the binding
without unpinning the former target, and resolve returns the current
binding.  Aliased CIDs get no removal protection from the alias map. -/
theorem C2_alias_only_updates_alias_map :
    ∀ (cbor : List Nat → Option Ipld) (s : MemStore) (name : List Nat)
      (cid : Cid),
      runOp cbor s (Op.aliasOp name cid) =
        some (MemStore.aliasOp s name cid) ∧
      (MemStore.aliasOp s name cid).inner = s.inner ∧
      (MemStore.aliasOp s name cid).aliases = insertA name cid s.aliases ∧
      MemStore.resolve (MemStore.aliasOp s name cid) name = some cid ∧
      runOp cbor s (Op.unalias name) = some (MemStore.unaliasOp s name) ∧
      (MemStore.unaliasOp s name).inner = s.inner ∧
      (MemStore.unaliasOp s name).aliases = removeA name s.aliases ∧
      MemStore.resolve (MemStore.unaliasOp s name) name = none := by
  intro cbor s name cid
  refine ⟨rfl, rfl, rfl, ?_, rfl, rfl, rfl, ?_⟩
  · exact lookupA_insertA_self name cid s.aliases
  · exact lookupA_removeA_self name s.aliases

/-! ### Claim C1 -/

/-- A successful insert_block only adds the inserted pair to the block
map. -/
theorem insert_block_blocks (cbor : List Nat → Option Ipld)
    {st st' : InnerStore} {cid : Cid} {data : List Nat}
    (h : InnerStore.insert_block cbor st cid data = Except.ok st') :
    ∀ c d, lookupA st'.blocks c = some d →
      (c = cid ∧ d = data) ∨ lookupA st.blocks c = some d := by
  intro c d hc
  by_cases hp : (lookupA st.blocks cid).isSome
  · rw [insert_block_present cbor st cid data hp] at h
    cases h
    exact Or.inr hc
  · simp only [InnerStore.insert_block, hp, if_false] at h
    cases hd : decode_ipld cbor cid data with
    | error e => rw [hd] at h; cases h
    | ok ipld =>
      rw [hd] at h
      cases h
      have hblocks :=
        (foldl_add_referer_parts (references ipld) st).1
      by_cases hcc : c = cid
      · subst hcc
        rw [lookupA_insertA_self] at hc
        cases hc
        exact Or.inl ⟨rfl, rfl⟩
      · rw [lookupA_insertA_ne data _ hcc, hblocks] at hc
        exact Or.inr hc

/-- Removal never adds blocks: any block present after removeGo was
present before. -/
theorem removeGo_blocks_mono :
    ∀ (fuel : Nat) (st : InnerStore) (cid : Cid) (st' : InnerStore),
      removeGo fuel st cid = some st' →
      ∀ k d, lookupA st'.blocks k = some d →
        lookupA st.blocks k = some d := by
  intro fuel
  induction fuel with
  | zero =>
    intro st cid st' h
    simp [removeGo] at h
  | succ n ihn =>
    intro st cid st' h k d hk
    by_cases hcond : (lookupA st.referers cid).getD 0 < 1 ∧
        (lookupA st.pins cid).getD 0 < 1
    · simp only [removeGo, hcond, and_self, if_true] at h
      cases hrefs : lookupA st.refs cid with
      | none => rw [hrefs] at h; cases h
      | some refsList =>
        rw [hrefs] at h
        have hloop :
            ∀ (l : List Cid) (s st2 : InnerStore),
              l.foldlM
                (fun s c =>
                  removeGo n (InnerStore.add_referer s c (-1)) c) s =
                some st2 →
              ∀ k d, lookupA st2.blocks k = some d →
                lookupA s.blocks k = some d := by
          intro l
          induction l with
          | nil =>
            intro s st2 hl k d hkd
            simp only [List.foldlM_nil] at hl
            cases hl
            exact hkd
          | cons c cs ihl =>
            intro s st2 hl k d hkd
            simp only [List.foldlM_cons] at hl
            cases hstep : removeGo n (InnerStore.add_referer s c (-1)) c
              with
            | none => rw [hstep] at hl; cases hl
            | some s2 =>
              rw [hstep] at hl
              simp only [Option.bind_eq_bind, Option.some_bind] at hl
              have h2 := ihl s2 st2 hl k d hkd
              exact ihn (InnerStore.add_referer s c (-1)) c s2 hstep k d h2
        have h1 := hloop refsList _ st' h k d hk
        exact lookupA_removeA_subset st.blocks h1
    · simp only [removeGo, hcond, if_false] at h
      cases h
      exact hk

/-- Unpin never adds blocks. -/
theorem unpin_blocks_mono {st st' : InnerStore} {cid : Cid}
    (h : InnerStore.unpin st cid = some st') :
    ∀ k d, lookupA st'.blocks k = some d →
      lookupA st.blocks k = some d := by
  intro k d hk
  cases hp : lookupA st.pins cid with
  | none =>
    simp only [InnerStore.unpin, hp] at h
    cases h
    exact hk
  | some pinsv =>
    simp only [InnerStore.unpin, hp] at h
    by_cases hgt : pinsv > 1
    · simp only [hgt, if_true] at h
      cases h
      exact hk
    · simp only [hgt, if_false] at h
      exact removeGo_blocks_mono _ _ cid st' h k d hk

/-- The blocks of a store all satisfy validate. -/
def ValidBlocks (digest : Nat → List Nat → Multihash) (maxB : Nat)
    (st : InnerStore) : Prop :=
  ∀ c d, lookupA st.blocks c = some d →
    validate digest maxB c d = Except.ok ()

/-- An operation whose inserted pairs all satisfy validate. -/
def OpValidated (digest : Nat → List Nat → Multihash) (maxB : Nat) :
    Op → Prop
  | Op.insert cid data => validate digest maxB cid data = Except.ok ()
  | Op.insertBatch batch =>
    ∀ b ∈ batch, validate digest maxB b.cid b.data = Except.ok ()
  | _ => True

/-- The insert_batch loop preserves block validity when the batch is
validated. -/
theorem insertBatchGo_valid (digest : Nat → List Nat → Multihash)
    (maxB : Nat) (cbor : List Nat → Option Ipld) :
    ∀ (batch : List Block) (st : InnerStore) (lastOpt : Option Cid),
      (∀ b ∈ batch, validate digest maxB b.cid b.data = Except.ok ()) →
      ValidBlocks digest maxB st →
      ValidBlocks digest maxB (insertBatchGo cbor st lastOpt batch).1 := by
  intro batch
  induction batch with
  | nil =>
    intro st lastOpt _ hst
    exact hst
  | cons b rest ih =>
    intro st lastOpt hval hst
    simp only [insertBatchGo]
    cases hres : InnerStore.insert_block cbor st b.cid b.data with
    | error e => exact hst
    | ok st1 =>
      have hst1 : ValidBlocks digest maxB st1 := by
        intro c d hc
        cases insert_block_blocks cbor hres c d hc with
        | inl hcd =>
          cases hcd.1
          cases hcd.2
          exact hval b (by simp)
        | inr hold => exact hst c d hold
      exact ih st1 (some b.cid) (fun b hb => hval b (by simp [hb])) hst1

/-- One validated operation preserves block validity. -/
theorem runOp_preserves_valid (digest : Nat → List Nat → Multihash)
    (maxB : Nat) (cbor : List Nat → Option Ipld) (s s' : MemStore)
    (op : Op) (hop : OpValidated digest maxB op)
    (hs : ValidBlocks digest maxB s.inner)
    (h : runOp cbor s op = some s') :
    ValidBlocks digest maxB s'.inner := by
  cases op with
  | insert cid data =>
    cases hres : InnerStore.insert cbor s.inner cid data with
    | error e =>
      simp only [runOp, hres] at h
      cases h
      exact hs
    | ok st1 =>
      simp only [runOp, hres] at h
      cases h
      cases hib : InnerStore.insert_block cbor s.inner cid data with
      | error e => simp [InnerStore.insert, hib, Except.map] at hres
      | ok stm =>
        simp only [InnerStore.insert, hib, Except.map] at hres
        cases hres
        intro c d hc
        cases insert_block_blocks cbor hib c d hc with
        | inl hcd =>
          cases hcd.1
          cases hcd.2
          exact hop
        | inr hold => exact hs c d hold
  | insertBatch batch =>
    simp only [runOp] at h
    cases h
    exact insertBatchGo_valid digest maxB cbor batch s.inner none hop hs
  | pin cid =>
    simp only [runOp] at h
    cases h
    exact hs
  | unpin cid =>
    cases hu : InnerStore.unpin s.inner cid with
    | none => simp [runOp, hu] at h
    | some st1 =>
      simp only [runOp, hu, Option.map_some] at h
      cases h
      intro c d hc
      exact hs c d (unpin_blocks_mono hu c d hc)
  | aliasOp name cid =>
    simp only [runOp] at h
    cases h
    exact hs
  | unalias name =>
    simp only [runOp] at h
    cases h
    exact hs

/-- A validated run preserves block validity. -/
theorem run_preserves_valid (digest : Nat → List Nat → Multihash)
    (maxB : Nat) (cbor : List Nat → Option Ipld) :
    ∀ (ops : List Op) (s0 s : MemStore),
      ValidBlocks digest maxB s0.inner →
      (∀ op ∈ ops, OpValidated digest maxB op) →
      run cbor s0 ops = some s →
      ValidBlocks digest maxB s.inner := by
  intro ops
  induction ops with
  | nil =>
    intro s0 s h0 _ h
    cases h
    exact h0
  | cons op rest ih =>
    intro s0 s h0 hops h
    simp only [run] at h
    cases hstep : runOp cbor s0 op with
    | none => rw [hstep] at h; cases h
    | some s1 =>
      rw [hstep] at h
      exact ih s1 s
        (runOp_preserves_valid digest maxB cbor s0 s1 op
          (hops op (by simp)) h0 hstep)
        (fun op' hop' => hops op' (by simp [hop'])) h

/-- C1 counterexample: MemStore.insert admits a block whose CID digest
does not match the data (it never validates), so a reachable store state
returns a (cid, data) pair from get on which validate fails. -/
theorem C1_counterexample :
    (run cborNone MemStore.empty [Op.insert cidRawBad [1, 2]]).map
        (fun s => InnerStore.get s.inner cidRawBad) =
      some (Except.ok [1, 2]) ∧
    validate digestId 1000000 cidRawBad [1, 2] =
      Except.error (BlockError.invalidHash ⟨0, [1, 2]⟩) := by decide

/-- C1 amended: the store preserves address integrity but does not
establish it — if every insert and insert_batch of a run was given pairs
satisfying validate, then every (cid, data) pair that get returns in the
reached state satisfies validate. -/
theorem C1_integrity_of_validated_runs
    (digest : Nat → List Nat → Multihash) (maxB : Nat)
    (cbor : List Nat → Option Ipld) (ops : List Op) (s : MemStore)
    (hrun : run cbor MemStore.empty ops = some s)
    (hops : ∀ op ∈ ops, OpValidated digest maxB op) :
    ∀ c d, InnerStore.get s.inner c = Except.ok d →
      validate digest maxB c d = Except.ok () := by
  intro c d hget
  have hvalid :=
    run_preserves_valid digest maxB cbor ops MemStore.empty s
      (fun c d hc => by cases hc) hops hrun
  cases hc : lookupA s.inner.blocks c with
  | none => simp [InnerStore.get, hc] at hget
  | some d' =>
    simp only [InnerStore.get, hc] at hget
    cases hget
    exact hvalid c d hc

/-- Witness for C1 amended at a concrete validated run. -/
theorem C1_integrity_of_validated_runs_witness :
    validate digestId 1000000 cidRawOk [7, 8] = Except.ok () :=
  C1_integrity_of_validated_runs digestId 1000000 cborNone
    [Op.insert cidRawOk [7, 8]] ⟨stOne, []⟩ (by decide)
    (by
      intro op hop
      simp only [List.mem_singleton] at hop
      subst hop
      simp only [OpValidated]
      decide)
    cidRawOk [7, 8] (by decide)

/-! ### Claim C3 -/

/-- removeGo at zero fuel. -/
theorem removeGo_zero (st : InnerStore) (cid : Cid) :
    removeGo 0 st cid = none := rfl

/-- Unfolding equation of removeGo at positive fuel. -/
theorem removeGo_succ (n : Nat) (st : InnerStore) (cid : Cid) :
    removeGo (n + 1) st cid =
      (if (lookupA st.referers cid).getD 0 < 1 ∧
          (lookupA st.pins cid).getD 0 < 1 then
        match lookupA st.refs cid with
        | none => none
        | some refsList =>
          let st1 :=
            { st with
              blocks := removeA cid st.blocks,
              refs := removeA cid st.refs }
          refsList.foldlM
            (fun s c => removeGo n (InnerStore.add_referer s c (-1)) c) st1
      else some st) := rfl

/-- C3: the S1 insert/unpin chain.  From a fresh store, after inserting a
(no links), b (links a), unpinning a, and inserting c (links a): all three
blocks are retrievable; a further unpin(b) removes b only (a survives via
c's reference); a further unpin(c) cascades and removes all three. -/
theorem C3_insert_unpin_chain
    (cbor : List Nat → Option Ipld) (a b c : Cid) (da db dc : List Nat)
    (hca : a.codec = DAG_CBOR_CODEC) (hcb : b.codec = DAG_CBOR_CODEC)
    (hcc : c.codec = DAG_CBOR_CODEC)
    (hda : cbor da = some (Ipld.map [("a", Ipld.list [])]))
    (hdb : cbor db = some (Ipld.map [("b", Ipld.list [Ipld.link a])]))
    (hdc : cbor dc = some (Ipld.map [("c", Ipld.list [Ipld.link a])]))
    (hab : a ≠ b) (hbc : b ≠ c) (hac : a ≠ c) :
    ∃ s1 s2 s3,
      run cbor MemStore.empty
          [Op.insert a da, Op.insert b db, Op.unpin a, Op.insert c dc] =
        some s1 ∧
      InnerStore.get s1.inner a = Except.ok da ∧
      InnerStore.get s1.inner b = Except.ok db ∧
      InnerStore.get s1.inner c = Except.ok dc ∧
      runOp cbor s1 (Op.unpin b) = some s2 ∧
      InnerStore.get s2.inner a = Except.ok da ∧
      InnerStore.get s2.inner b =
        Except.error (StoreError.blockNotFound b) ∧
      InnerStore.get s2.inner c = Except.ok dc ∧
      runOp cbor s2 (Op.unpin c) = some s3 ∧
      InnerStore.get s3.inner a =
        Except.error (StoreError.blockNotFound a) ∧
      InnerStore.get s3.inner b =
        Except.error (StoreError.blockNotFound b) ∧
      InnerStore.get s3.inner c =
        Except.error (StoreError.blockNotFound c) := by
  have hba : b ≠ a := Ne.symm hab
  have hcb2 : c ≠ b := Ne.symm hbc
  have hca2 : c ≠ a := Ne.symm hac
  refine ⟨⟨⟨[(c, dc), (b, db), (a, da)],
            [(c, [a]), (b, [a]), (a, [])], [(a, 2)],
            [(c, 1), (b, 1)]⟩, []⟩,
          ⟨⟨[(c, dc), (a, da)], [(c, [a]), (a, [])], [(a, 1)],
            [(c, 1)]⟩, []⟩,
          ⟨⟨[], [], [(a, 0)], []⟩, []⟩,
          ?_, ?_, ?_, ?_, ?_, ?_, ?_, ?_, ?_, ?_, ?_, ?_⟩
  all_goals
    simp [run, runOp, InnerStore.insert, InnerStore.insert_block,
      InnerStore.pin, InnerStore.add_referer, InnerStore.unpin,
      InnerStore.remove, removeGo_succ, decode_ipld, InnerStore.get,
      hca, hcb, hcc, hda, hdb, hdc, references, collectLinks,
      collectLinksMap, collectLinksList, lookupA, insertA, removeA,
      List.filter, hab, hbc, hac, hba, hcb2, hca2, Except.map, Option.map,
      MemStore.empty, InnerStore.empty, List.foldlM, Option.getD]

/-- Witness for C3 at a concrete codec environment. -/
theorem C3_insert_unpin_chain_witness :
    ∃ s1 s2 s3,
      run cborTest MemStore.empty
          [Op.insert cidA [0], Op.insert cidB [1], Op.unpin cidA,
           Op.insert cidC [2]] =
        some s1 ∧
      InnerStore.get s1.inner cidA = Except.ok [0] ∧
      InnerStore.get s1.inner cidB = Except.ok [1] ∧
      InnerStore.get s1.inner cidC = Except.ok [2] ∧
      runOp cborTest s1 (Op.unpin cidB) = some s2 ∧
      InnerStore.get s2.inner cidA = Except.ok [0] ∧
      InnerStore.get s2.inner cidB =
        Except.error (StoreError.blockNotFound cidB) ∧
      InnerStore.get s2.inner cidC = Except.ok [2] ∧
      runOp cborTest s2 (Op.unpin cidC) = some s3 ∧
      InnerStore.get s3.inner cidA =
        Except.error (StoreError.blockNotFound cidA) ∧
      InnerStore.get s3.inner cidB =
        Except.error (StoreError.blockNotFound cidB) ∧
      InnerStore.get s3.inner cidC =
        Except.error (StoreError.blockNotFound cidC) :=
  C3_insert_unpin_chain cborTest cidA cidB cidC [0] [1] [2] rfl rfl rfl
    rfl rfl rfl (by decide) (by decide) (by decide)

/-! ### Claim C9 -/

/-- read_ipld modelled from the spec. -/
def read_ipld (cbor : List Nat → Option Ipld)
    (blocks : List (Cid × List Nat)) (c : Cid) :
    Except BlockError (Option Ipld) :=
  match lookupA blocks c with
  | none => Except.ok none
  | some d =>
    match decode_ipld cbor c d with
    | Except.error e => Except.error e
    | Except.ok i => Except.ok (some i)

/-- Inner for-loop of gc.rs closure. -/
def drainFrontier (cbor : List Nat → Option Ipld)
    (blocks : List (Cid × List Nat)) :
    List Cid → List Cid → List (List Cid) →
    Except BlockError (List Cid × List (List Cid))
  | [], set, stack => Except.ok (set, stack)
  | c :: cs, set, stack =>
    if c ∈ set then drainFrontier cbor blocks cs set stack
    else
      match read_ipld cbor blocks c with
      | Except.error e => Except.error e
      | Except.ok none => drainFrontier cbor blocks cs (c :: set) stack
      | Except.ok (some ipld) =>
        drainFrontier cbor blocks cs (c :: set) (references ipld :: stack)

/-- Weight of one cid for the termination measure. -/
def refBound (cbor : List Nat → Option Ipld)
    (blocks : List (Cid × List Nat)) (c : Cid) : Nat :=
  match read_ipld cbor blocks c with
  | Except.ok (some i) => 1 + (references i).length
  | _ => 1

/-- Keys of the block map. -/
def keysOf (blocks : List (Cid × List Nat)) : List Cid :=
  blocks.map Prod.fst

/-- Weight of the unvisited keys. -/
def setWeight (cbor : List Nat → Option Ipld)
    (blocks : List (Cid × List Nat)) (set : List Cid) : Nat :=
  (((keysOf blocks).filter (fun c => decide (c ∉ set))).map
      (refBound cbor blocks)).sum

/-- Weight of the stack. -/
def stackWeight (stack : List (List Cid)) : Nat :=
  (stack.map List.length).sum + stack.length

theorem filter_notmem_cons_pos {x : Cid} {s : List Cid} (rest : List Cid)
    (h : x ∉ s) :
    (x :: rest).filter (fun y => decide (y ∉ s)) =
      x :: rest.filter (fun y => decide (y ∉ s)) := by
  simp [List.filter_cons, h]

theorem filter_notmem_cons_neg {x : Cid} {s : List Cid} (rest : List Cid)
    (h : x ∈ s) :
    (x :: rest).filter (fun y => decide (y ∉ s)) =
      rest.filter (fun y => decide (y ∉ s)) := by
  simp [List.filter_cons, h]

theorem filter_sum_mono (f : Cid → Nat) (c : Cid) :
    ∀ (l : List Cid) (set : List Cid),
      ((l.filter (fun x => decide (x ∉ c :: set))).map f).sum ≤
        ((l.filter (fun x => decide (x ∉ set))).map f).sum := by
  intro l
  induction l with
  | nil => intro set; simp
  | cons x rest ih =>
    intro set
    by_cases hx : x ∈ c :: set
    · rw [filter_notmem_cons_neg rest hx]
      by_cases hx2 : x ∈ set
      · rw [filter_notmem_cons_neg rest hx2]
        exact ih set
      · rw [filter_notmem_cons_pos rest hx2]
        have := ih set
        simp only [List.map_cons, List.sum_cons]
        omega
    · have hx2 : x ∉ set := fun hc => hx (List.mem_cons_of_mem c hc)
      rw [filter_notmem_cons_pos rest hx, filter_notmem_cons_pos rest hx2]
      have := ih set
      simp only [List.map_cons, List.sum_cons]
      omega

theorem filter_sum_drop (f : Cid → Nat) (c : Cid) :
    ∀ (l : List Cid) (set : List Cid), c ∈ l → c ∉ set →
      ((l.filter (fun x => decide (x ∉ c :: set))).map f).sum + f c ≤
        ((l.filter (fun x => decide (x ∉ set))).map f).sum := by
  intro l
  induction l with
  | nil => intro set h; cases h
  | cons x rest ih =>
    intro set hc hcs
    by_cases hx : x = c
    · subst hx
      rw [filter_notmem_cons_neg rest (List.mem_cons_self x set),
        filter_notmem_cons_pos rest hcs]
      have := filter_sum_mono f x rest set
      simp only [List.map_cons, List.sum_cons]
      omega
    · have hcrest : c ∈ rest := by
        cases hc with
        | head => exact absurd rfl hx
        | tail _ h => exact h
      by_cases hx2 : x ∈ set
      · rw [filter_notmem_cons_neg rest hx2,
          filter_notmem_cons_neg rest (List.mem_cons_of_mem c hx2)]
        exact ih set hcrest hcs
      · have hx3 : x ∉ c :: set := by
          intro hmem
          cases hmem with
          | head => exact hx rfl
          | tail _ h => exact hx2 h
        rw [filter_notmem_cons_pos rest hx3,
          filter_notmem_cons_pos rest hx2]
        have := ih set hcrest hcs
        simp only [List.map_cons, List.sum_cons]
        omega

theorem setWeight_cons_le (cbor : List Nat → Option Ipld)
    (blocks : List (Cid × List Nat)) (c : Cid) (set : List Cid) :
    setWeight cbor blocks (c :: set) ≤ setWeight cbor blocks set :=
  filter_sum_mono (refBound cbor blocks) c (keysOf blocks) set

theorem setWeight_cons_key (cbor : List Nat → Option Ipld)
    (blocks : List (Cid × List Nat)) {c : Cid} {set : List Cid}
    (hk : c ∈ keysOf blocks) (hs : c ∉ set) :
    setWeight cbor blocks (c :: set) + refBound cbor blocks c ≤
      setWeight cbor blocks set :=
  filter_sum_drop (refBound cbor blocks) c (keysOf blocks) set hk hs

/-- A cid read as present is a key of the block map. -/
theorem read_ipld_some_key {cbor : List Nat → Option Ipld}
    {blocks : List (Cid × List Nat)} {c : Cid} {i : Ipld}
    (h : read_ipld cbor blocks c = Except.ok (some i)) :
    c ∈ keysOf blocks := by
  cases hl : lookupA blocks c with
  | none => simp [read_ipld, hl] at h
  | some d =>
    clear h
    induction blocks with
    | nil => cases hl
    | cons kv rest ih =>
      by_cases hk : kv.1 = c
      · exact List.mem_map.mpr ⟨kv, List.mem_cons_self kv rest, hk⟩
      · simp only [lookupA, hk, if_false] at hl
        exact List.mem_cons_of_mem _ (ih hl)

/-- The refBound of a cid read as present. -/
theorem refBound_of_some {cbor : List Nat → Option Ipld}
    {blocks : List (Cid × List Nat)} {c : Cid} {i : Ipld}
    (h : read_ipld cbor blocks c = Except.ok (some i)) :
    refBound cbor blocks c = 1 + (references i).length := by
  simp [refBound, h]

/-- Drain only lowers the combined weight, up to the consumed frontier. -/
theorem drainFrontier_weight (cbor : List Nat → Option Ipld)
    (blocks : List (Cid × List Nat)) :
    ∀ (f set : List Cid) (stack : List (List Cid)) (set' : List Cid)
      (stack' : List (List Cid)),
      drainFrontier cbor blocks f set stack = Except.ok (set', stack') →
      setWeight cbor blocks set' + stackWeight stack' ≤
        setWeight cbor blocks set + f.length + stackWeight stack := by
  intro f
  induction f with
  | nil =>
    intro set stack set' stack' h
    cases h
    omega
  | cons c cs ih =>
    intro set stack set' stack' h
    simp only [drainFrontier] at h
    by_cases hc : c ∈ set
    · rw [if_pos hc] at h
      have := ih set stack set' stack' h
      simp only [List.length_cons]
      omega
    · rw [if_neg hc] at h
      cases hr : read_ipld cbor blocks c with
      | error e => rw [hr] at h; cases h
      | ok oi =>
        rw [hr] at h
        cases oi with
        | none =>
          have := ih (c :: set) stack set' stack' h
          have hle := setWeight_cons_le cbor blocks c set
          simp only [List.length_cons]
          omega
        | some ipld =>
          have := ih (c :: set) (references ipld :: stack) set' stack' h
          have hkey :=
            setWeight_cons_key cbor blocks (read_ipld_some_key hr) hc
          have hrb := refBound_of_some hr
          simp only [stackWeight, List.map_cons, List.sum_cons,
            List.length_cons] at this ⊢
          omega

/-- Outer while-let loop of gc.rs closure: pop a frontier, drain it, and
continue on the updated stack and seen-set. -/
def closureGo (cbor : List Nat → Option Ipld)
    (blocks : List (Cid × List Nat)) :
    List (List Cid) → List Cid → Except BlockError (List Cid)
  | [], set => Except.ok set
  | frontier :: rest, set =>
    match h : drainFrontier cbor blocks frontier set rest with
    | Except.error e => Except.error e
    | Except.ok (set', stack') => closureGo cbor blocks stack' set'
termination_by stack set => setWeight cbor blocks set + stackWeight stack
decreasing_by
  have hw := drainFrontier_weight cbor blocks frontier set rest set'
    stack' h
  simp only [stackWeight, List.map_cons, List.sum_cons,
    List.length_cons] at hw ⊢
  omega

/-- gc.rs closure: run the loop from the root frontier and an empty
seen-set (named gcClosure to avoid clashing with the topological
closure). -/
def gcClosure (cbor : List Nat → Option Ipld)
    (blocks : List (Cid × List Nat)) (roots : List Cid) :
    Except BlockError (List Cid) :=
  closureGo cbor blocks [roots] []


/-- Full specification of one drain pass: the seen-set only grows, every
frontier element ends in the set, new members were read successfully, the
old stack survives, and every new stack entry is the reference list of a
block read while draining. -/
theorem drainFrontier_spec (cbor : List Nat → Option Ipld)
    (blocks : List (Cid × List Nat)) :
    ∀ (f set : List Cid) (stack : List (List Cid)) (set' : List Cid)
      (stack' : List (List Cid)),
      drainFrontier cbor blocks f set stack = Except.ok (set', stack') →
      (∀ x ∈ set, x ∈ set') ∧
      (∀ x ∈ f, x ∈ set') ∧
      (∀ x ∈ set', x ∈ set ∨
        (x ∈ f ∧ ∃ v, read_ipld cbor blocks x = Except.ok v)) ∧
      (∀ g ∈ stack, g ∈ stack') ∧
      (∀ g ∈ stack', g ∈ stack ∨
        ∃ x i, x ∈ set' ∧ read_ipld cbor blocks x = Except.ok (some i) ∧
          g = references i) := by
  intro f
  induction f with
  | nil =>
    intro set stack set' stack' h
    cases h
    exact ⟨fun x hx => hx, fun x hx => absurd hx (List.not_mem_nil x),
      fun x hx => Or.inl hx, fun g hg => hg, fun g hg => Or.inl hg⟩
  | cons c cs ih =>
    intro set stack set' stack' h
    simp only [drainFrontier] at h
    by_cases hc : c ∈ set
    · rw [if_pos hc] at h
      obtain ⟨A, B, C, D, E⟩ := ih set stack set' stack' h
      refine ⟨A, ?_, ?_, D, E⟩
      · intro x hx
        cases hx with
        | head => exact A c hc
        | tail _ hx2 => exact B x hx2
      · intro x hx
        cases C x hx with
        | inl h1 => exact Or.inl h1
        | inr h2 => exact Or.inr ⟨List.mem_cons_of_mem c h2.1, h2.2⟩
    · rw [if_neg hc] at h
      cases hr : read_ipld cbor blocks c with
      | error e => rw [hr] at h; cases h
      | ok oi =>
        rw [hr] at h
        cases oi with
        | none =>
          obtain ⟨A, B, C, D, E⟩ := ih (c :: set) stack set' stack' h
          refine ⟨?_, ?_, ?_, D, E⟩
          · intro x hx
            exact A x (List.mem_cons_of_mem c hx)
          · intro x hx
            cases hx with
            | head => exact A c (List.mem_cons_self c set)
            | tail _ hx2 => exact B x hx2
          · intro x hx
            cases C x hx with
            | inl h1 =>
              cases h1 with
              | head => exact Or.inr ⟨List.mem_cons_self c cs, none, hr⟩
              | tail _ h2 => exact Or.inl h2
            | inr h2 =>
              exact Or.inr ⟨List.mem_cons_of_mem c h2.1, h2.2⟩
        | some ipld =>
          obtain ⟨A, B, C, D, E⟩ :=
            ih (c :: set) (references ipld :: stack) set' stack' h
          refine ⟨?_, ?_, ?_, ?_, ?_⟩
          · intro x hx
            exact A x (List.mem_cons_of_mem c hx)
          · intro x hx
            cases hx with
            | head => exact A c (List.mem_cons_self c set)
            | tail _ hx2 => exact B x hx2
          · intro x hx
            cases C x hx with
            | inl h1 =>
              cases h1 with
              | head =>
                exact Or.inr ⟨List.mem_cons_self c cs, some ipld, hr⟩
              | tail _ h2 => exact Or.inl h2
            | inr h2 =>
              exact Or.inr ⟨List.mem_cons_of_mem c h2.1, h2.2⟩
          · intro g hg
            exact D g (List.mem_cons_of_mem _ hg)
          · intro g hg
            cases E g hg with
            | inl h1 =>
              cases h1 with
              | head =>
                exact Or.inr ⟨c, ipld, A c (List.mem_cons_self c set),
                  hr, rfl⟩
              | tail _ h2 => exact Or.inl h2
            | inr h2 => exact Or.inr h2

/-- The coverage invariant of the closure loop: every reference of every
seen present block is either already seen or pending on the stack. -/
def Covered (cbor : List Nat → Option Ipld)
    (blocks : List (Cid × List Nat)) (stack : List (List Cid))
    (set : List Cid) : Prop :=
  ∀ x ∈ set, ∀ i, read_ipld cbor blocks x = Except.ok (some i) →
    ∀ y ∈ references i, y ∈ set ∨ ∃ g ∈ stack, y ∈ g

/-- Draining the top frontier preserves coverage. -/
theorem drainFrontier_covered (cbor : List Nat → Option Ipld)
    (blocks : List (Cid × List Nat)) :
    ∀ (f set : List Cid) (stack : List (List Cid)) (set' : List Cid)
      (stack' : List (List Cid)),
      Covered cbor blocks (f :: stack) set →
      drainFrontier cbor blocks f set stack = Except.ok (set', stack') →
      Covered cbor blocks stack' set' := by
  intro f
  induction f with
  | nil =>
    intro set stack set' stack' hcov h
    cases h
    intro x hx i hri y hy
    cases hcov x hx i hri y hy with
    | inl h1 => exact Or.inl h1
    | inr h2 =>
      obtain ⟨g, hg, hyg⟩ := h2
      cases hg with
      | head => exact absurd hyg (List.not_mem_nil y)
      | tail _ hg2 => exact Or.inr ⟨g, hg2, hyg⟩
  | cons c cs ih =>
    intro set stack set' stack' hcov h
    simp only [drainFrontier] at h
    by_cases hc : c ∈ set
    · rw [if_pos hc] at h
      refine ih set stack set' stack' ?_ h
      intro x hx i hri y hy
      cases hcov x hx i hri y hy with
      | inl h1 => exact Or.inl h1
      | inr h2 =>
        obtain ⟨g, hg, hyg⟩ := h2
        cases hg with
        | head =>
          cases hyg with
          | head => exact Or.inl hc
          | tail _ hy2 => exact Or.inr ⟨cs, List.mem_cons_self cs stack, hy2⟩
        | tail _ hg2 =>
          exact Or.inr ⟨g, List.mem_cons_of_mem cs hg2, hyg⟩
    · rw [if_neg hc] at h
      cases hr : read_ipld cbor blocks c with
      | error e => rw [hr] at h; cases h
      | ok oi =>
        rw [hr] at h
        cases oi with
        | none =>
          refine ih (c :: set) stack set' stack' ?_ h
          intro x hx i hri y hy
          cases hx with
          | head =>
            rw [hri] at hr
            cases hr
          | tail _ hx2 =>
            cases hcov x hx2 i hri y hy with
            | inl h1 => exact Or.inl (List.mem_cons_of_mem c h1)
            | inr h2 =>
              obtain ⟨g, hg, hyg⟩ := h2
              cases hg with
              | head =>
                cases hyg with
                | head => exact Or.inl (List.mem_cons_self c set)
                | tail _ hy2 =>
                  exact Or.inr ⟨cs, List.mem_cons_self cs stack, hy2⟩
              | tail _ hg2 =>
                exact Or.inr ⟨g, List.mem_cons_of_mem cs hg2, hyg⟩
        | some ipld =>
          refine ih (c :: set) (references ipld :: stack) set' stack' ?_ h
          intro x hx i hri y hy
          cases hx with
          | head =>
            rw [hri] at hr
            injection hr with hr2
            injection hr2 with hr3
            subst hr3
            exact Or.inr ⟨references i,
              List.mem_cons_of_mem cs (List.mem_cons_self _ stack), hy⟩
          | tail _ hx2 =>
            cases hcov x hx2 i hri y hy with
            | inl h1 => exact Or.inl (List.mem_cons_of_mem c h1)
            | inr h2 =>
              obtain ⟨g, hg, hyg⟩ := h2
              cases hg with
              | head =>
                cases hyg with
                | head => exact Or.inl (List.mem_cons_self c set)
                | tail _ hy2 =>
                  exact Or.inr ⟨cs, List.mem_cons_self cs _, hy2⟩
              | tail _ hg2 =>
                exact Or.inr ⟨g,
                  List.mem_cons_of_mem cs (List.mem_cons_of_mem _ hg2), hyg⟩

/-- A drain pass over readable cids succeeds. -/
theorem drainFrontier_total (cbor : List Nat → Option Ipld)
    (blocks : List (Cid × List Nat)) :
    ∀ (f set : List Cid) (stack : List (List Cid)),
      (∀ x ∈ f, ∃ v, read_ipld cbor blocks x = Except.ok v) →
      ∃ out, drainFrontier cbor blocks f set stack = Except.ok out := by
  intro f
  induction f with
  | nil =>
    intro set stack _
    exact ⟨(set, stack), rfl⟩
  | cons c cs ih =>
    intro set stack hread
    simp only [drainFrontier]
    by_cases hc : c ∈ set
    · rw [if_pos hc]
      exact ih set stack (fun x hx => hread x (List.mem_cons_of_mem c hx))
    · rw [if_neg hc]
      obtain ⟨v, hv⟩ := hread c (List.mem_cons_self c cs)
      rw [hv]
      cases v with
      | none =>
        exact ih (c :: set) stack
          (fun x hx => hread x (List.mem_cons_of_mem c hx))
      | some ipld =>
        exact ih (c :: set) (references ipld :: stack)
          (fun x hx => hread x (List.mem_cons_of_mem c hx))

/-- The closure loop result contains the seen-set and every pending cid. -/
theorem closureGo_mem (cbor : List Nat → Option Ipld)
    (blocks : List (Cid × List Nat)) :
    ∀ (stack : List (List Cid)) (set : List Cid) (res : List Cid),
      closureGo cbor blocks stack set = Except.ok res →
      (∀ x ∈ set, x ∈ res) ∧ (∀ g ∈ stack, ∀ x ∈ g, x ∈ res) := by
  intro stack set
  induction stack, set using closureGo.induct cbor blocks with
  | case1 set =>
    intro res h
    simp only [closureGo] at h
    cases h
    exact ⟨fun x hx => hx, fun g hg => absurd hg (List.not_mem_nil g)⟩
  | case2 frontier rest set e hdrain =>
    intro res h
    simp only [closureGo] at h
    split at h
    next => cases h
    next set2 stack2 heq =>
      rw [hdrain] at heq
      cases heq
  | case3 frontier rest set set' stack' hdrain ih =>
    intro res h
    simp only [closureGo] at h
    split at h
    next e heq =>
      rw [hdrain] at heq
      cases heq
    next set2 stack2 heq =>
      rw [hdrain] at heq
      injection heq with heq2
      injection heq2 with hs hst
      subst hs
      subst hst
      obtain ⟨IH1, IH2⟩ := ih res h
      obtain ⟨A, B, C, D, E⟩ :=
        drainFrontier_spec cbor blocks frontier set rest set' stack' hdrain
      refine ⟨fun x hx => IH1 x (A x hx), ?_⟩
      intro g hg x hx
      cases hg with
      | head => exact IH1 x (B x hx)
      | tail _ hg2 => exact IH2 g (D g hg2) x hx

/-- Every member of the closure result is an original root or was read
successfully. -/
theorem closureGo_readable (cbor : List Nat → Option Ipld)
    (blocks : List (Cid × List Nat)) :
    ∀ (stack : List (List Cid)) (set : List Cid) (res : List Cid),
      closureGo cbor blocks stack set = Except.ok res →
      ∀ x ∈ res, x ∈ set ∨ ∃ v, read_ipld cbor blocks x = Except.ok v := by
  intro stack set
  induction stack, set using closureGo.induct cbor blocks with
  | case1 set =>
    intro res h x hx
    simp only [closureGo] at h
    cases h
    exact Or.inl hx
  | case2 frontier rest set e hdrain =>
    intro res h
    simp only [closureGo] at h
    split at h
    next => cases h
    next set2 stack2 heq =>
      rw [hdrain] at heq
      cases heq
  | case3 frontier rest set set' stack' hdrain ih =>
    intro res h x hx
    simp only [closureGo] at h
    split at h
    next e heq =>
      rw [hdrain] at heq
      cases heq
    next set2 stack2 heq =>
      rw [hdrain] at heq
      injection heq with heq2
      injection heq2 with hs hst
      subst hs
      subst hst
      obtain ⟨A, B, C, D, E⟩ :=
        drainFrontier_spec cbor blocks frontier set rest set' stack' hdrain
      cases ih res h x hx with
      | inl h1 =>
        cases C x h1 with
        | inl h2 => exact Or.inl h2
        | inr h2 => exact Or.inr h2.2
      | inr h2 => exact Or.inr h2

/-- The closure result is closed under references of present blocks. -/
theorem closureGo_closed (cbor : List Nat → Option Ipld)
    (blocks : List (Cid × List Nat)) :
    ∀ (stack : List (List Cid)) (set : List Cid) (res : List Cid),
      Covered cbor blocks stack set →
      closureGo cbor blocks stack set = Except.ok res →
      ∀ x ∈ res, ∀ i, read_ipld cbor blocks x = Except.ok (some i) →
        ∀ y ∈ references i, y ∈ res := by
  intro stack set
  induction stack, set using closureGo.induct cbor blocks with
  | case1 set =>
    intro res hcov h x hx i hri y hy
    simp only [closureGo] at h
    cases h
    cases hcov x hx i hri y hy with
    | inl h1 => exact h1
    | inr h2 =>
      obtain ⟨g, hg, _⟩ := h2
      exact absurd hg (List.not_mem_nil g)
  | case2 frontier rest set e hdrain =>
    intro res hcov h
    simp only [closureGo] at h
    split at h
    next => cases h
    next set2 stack2 heq =>
      rw [hdrain] at heq
      cases heq
  | case3 frontier rest set set' stack' hdrain ih =>
    intro res hcov h
    simp only [closureGo] at h
    split at h
    next e heq =>
      rw [hdrain] at heq
      cases heq
    next set2 stack2 heq =>
      rw [hdrain] at heq
      injection heq with heq2
      injection heq2 with hs hst
      subst hs
      subst hst
      exact ih res
        (drainFrontier_covered cbor blocks frontier set rest set' stack'
          hcov hdrain) h

/-- The closure loop run inside a closed, readable set succeeds and stays
inside the set. -/
theorem closureGo_run_in (cbor : List Nat → Option Ipld)
    (blocks : List (Cid × List Nat)) (S : List Cid)
    (hread : ∀ x ∈ S, ∃ v, read_ipld cbor blocks x = Except.ok v)
    (hclosed : ∀ x ∈ S, ∀ i, read_ipld cbor blocks x = Except.ok (some i) →
      ∀ y ∈ references i, y ∈ S) :
    ∀ (stack : List (List Cid)) (set : List Cid),
      (∀ g ∈ stack, ∀ x ∈ g, x ∈ S) → (∀ x ∈ set, x ∈ S) →
      ∃ res2, closureGo cbor blocks stack set = Except.ok res2 ∧
        ∀ x ∈ res2, x ∈ S := by
  intro stack set
  induction stack, set using closureGo.induct cbor blocks with
  | case1 set =>
    intro _ hset
    exact ⟨set, by simp only [closureGo], hset⟩
  | case2 frontier rest set e hdrain =>
    intro hstack hset
    obtain ⟨out, hout⟩ :=
      drainFrontier_total cbor blocks frontier set rest
        (fun x hx => hread x (hstack frontier (List.mem_cons_self _ _) x hx))
    rw [hdrain] at hout
    cases hout
  | case3 frontier rest set set' stack' hdrain ih =>
    intro hstack hset
    obtain ⟨A, B, C, D, E⟩ :=
      drainFrontier_spec cbor blocks frontier set rest set' stack' hdrain
    have hset' : ∀ x ∈ set', x ∈ S := by
      intro x hx
      cases C x hx with
      | inl h1 => exact hset x h1
      | inr h2 => exact hstack frontier (List.mem_cons_self _ _) x h2.1
    have hstack' : ∀ g ∈ stack', ∀ x ∈ g, x ∈ S := by
      intro g hg x hx
      cases E g hg with
      | inl h1 => exact hstack g (List.mem_cons_of_mem frontier h1) x hx
      | inr h2 =>
        obtain ⟨z, i, hz, hri, hgr⟩ := h2
        subst hgr
        exact hclosed z (hset' z hz) i hri x hx
    obtain ⟨res2, hres2, hsub⟩ := ih hstack' hset'
    refine ⟨res2, ?_, hsub⟩
    simp only [closureGo]
    split
    next e heq =>
      rw [hdrain] at heq
      cases heq
    next set2 stack2 heq =>
      rw [hdrain] at heq
      injection heq with heq2
      injection heq2 with hs hst
      subst hs
      subst hst
      exact hres2

/-- C9: closure is idempotent on root sets — running closure on the
result of a successful closure succeeds and returns the same set of
CIDs. -/
theorem C9_closure_idempotent (cbor : List Nat → Option Ipld)
    (blocks : List (Cid × List Nat)) (R res : List Cid)
    (h : gcClosure cbor blocks R = Except.ok res) :
    ∃ res2, gcClosure cbor blocks res = Except.ok res2 ∧
      ∀ x, x ∈ res2 ↔ x ∈ res := by
  have hreadable : ∀ x ∈ res, ∃ v, read_ipld cbor blocks x =
      Except.ok v := by
    intro x hx
    cases closureGo_readable cbor blocks [R] [] res h x hx with
    | inl h1 => exact absurd h1 (List.not_mem_nil x)
    | inr h2 => exact h2
  have hclosed := closureGo_closed cbor blocks [R] [] res
    (fun x hx => absurd hx (List.not_mem_nil x)) h
  obtain ⟨res2, hrun, hsub⟩ :=
    closureGo_run_in cbor blocks res hreadable hclosed [res] []
      (by
        intro g hg x hx
        cases hg with
        | head => exact hx
        | tail _ hg2 => exact absurd hg2 (List.not_mem_nil g))
      (fun x hx => absurd hx (List.not_mem_nil x))
  have hsup : ∀ x ∈ res, x ∈ res2 :=
    (closureGo_mem cbor blocks [res] [] res2 hrun).2 res
      (List.mem_cons_self res [])
  exact ⟨res2, hrun, fun x => ⟨fun hx => hsub x hx, fun hx => hsup x hx⟩⟩

/-- Witness for C9 at a concrete one-block store. -/
theorem C9_closure_idempotent_witness :
    ∃ res2, gcClosure cborTest [(cidA, [0])] [cidB, cidA] =
        Except.ok res2 ∧
      ∀ x, x ∈ res2 ↔ x ∈ [cidB, cidA] :=
  C9_closure_idempotent cborTest [(cidA, [0])] [cidA, cidB] [cidB, cidA]
    (by
      simp [gcClosure, closureGo, drainFrontier, read_ipld, decode_ipld,
        lookupA, cborTest, references, collectLinks, collectLinksMap,
        collectLinksList, cidA, cidB, DAG_CBOR_CODEC])

/-! ### Claim C10 -/

/-- A typed cache transaction (cache.rs Transaction): the raw store
transaction plus the staged (cid, value) pairs for cache population.  The
raw transaction type is abstract, as in the source it is only handed to
the store. -/
structure CTransaction (tau T : Type) where
  tx : tau
  cache : List (Cid × T)

/-- The state guarded by IpldCache (cache.rs): the underlying store and
the SizedCache, modelled as a most-recently-used-first list with its
capacity. -/
structure IpldCacheState (sigma T : Type) where
  store : sigma
  capacity : Nat
  cache : List (Cid × T)

/-- Modelled from the spec: the external cached crate's SizedCache
insertion — size-bounded map with LRU eviction (section 4.6).  The new
entry goes to the front, any previous binding of the key is dropped, and
the list is capped at the capacity. -/
def cacheSet {T : Type} (cap : Nat) (cache : List (Cid × T)) (k : Cid)
    (v : T) : List (Cid × T) :=
  ((k, v) :: cache.filter (fun kv => decide (kv.1 ≠ k))).take cap

/-- Modelled from the spec: SizedCache lookup, refreshing the entry's LRU
position on a hit. -/
def cacheGet {T : Type} (cache : List (Cid × T)) (k : Cid) :
    Option (T × List (Cid × T)) :=
  match lookupA cache k with
  | none => none
  | some v => some (v, (k, v) :: cache.filter (fun kv => decide (kv.1 ≠ k)))

/-- cache.rs IpldCache::commit: commit the raw transaction on the store;
on success fold every staged pair into the cache; on failure return the
error, discarding the staged pairs and leaving the cache untouched.  The
store commit function is abstract, as the source is generic in S:
Store. -/
def cacheCommit {sigma tau T E : Type}
    (commitS : sigma → tau → Except E sigma)
    (self : IpldCacheState sigma T) (txn : CTransaction tau T) :
    Except E Unit × IpldCacheState sigma T :=
  match commitS self.store txn.tx with
  | Except.error e => (Except.error e, self)
  | Except.ok store' =>
    (Except.ok (),
     { self with
       store := store',
       cache := txn.cache.foldl
         (fun c kv => cacheSet self.capacity c kv.1 kv.2) self.cache })

/-- cache.rs IpldCache::get: try the cache first and return on a hit;
otherwise fetch the block from the store, decode it, populate the cache
and return.  The boolean records whether the store was consulted. -/
def cacheGetOp {sigma T E : Type}
    (getS : sigma → Cid → Except E (List Nat))
    (decodeT : Cid → List Nat → Except E T)
    (self : IpldCacheState sigma T) (cid : Cid) :
    Except E T × IpldCacheState sigma T × Bool :=
  match cacheGet self.cache cid with
  | some (v, cache') => (Except.ok v, { self with cache := cache' }, false)
  | none =>
    match getS self.store cid with
    | Except.error e => (Except.error e, self, true)
    | Except.ok data =>
      match decodeT cid data with
      | Except.error e => (Except.error e, self, true)
      | Except.ok v =>
        (Except.ok v,
         { self with cache := cacheSet self.capacity self.cache cid v },
         true)

/-- A cache hit returns the cached value without consulting the store,
for every store access function. -/
theorem cacheGetOp_hit {sigma T E : Type}
    (getS : sigma → Cid → Except E (List Nat))
    (decodeT : Cid → List Nat → Except E T)
    (self : IpldCacheState sigma T) (cid : Cid) (v : T)
    (h : lookupA self.cache cid = some v) :
    cacheGetOp getS decodeT self cid =
      (Except.ok v,
       { self with
         cache := (cid, v) ::
           self.cache.filter (fun kv => decide (kv.1 ≠ cid)) },
       false) := by
  simp [cacheGetOp, cacheGet, h]

/-- C10: commit first applies the store commit to the raw transaction; on
failure the error is returned, the staged pairs are discarded and the
cache and store are unchanged; on success every staged pair is folded
into the cache, and any key still in the cache afterwards is served by a
subsequent get from the cache alone — with the ok result and no store
access, whatever the store's get would do. -/
theorem C10_cache_commit (sigma tau T E : Type)
    (commitS : sigma → tau → Except E sigma)
    (self : IpldCacheState sigma T) (txn : CTransaction tau T) :
    (∀ e, commitS self.store txn.tx = Except.error e →
      cacheCommit commitS self txn = (Except.error e, self)) ∧
    (∀ store', commitS self.store txn.tx = Except.ok store' →
      cacheCommit commitS self txn =
        (Except.ok (),
         { self with
           store := store',
           cache := txn.cache.foldl
             (fun c kv => cacheSet self.capacity c kv.1 kv.2)
             self.cache }) ∧
      (∀ (getS : sigma → Cid → Except E (List Nat))
          (decodeT : Cid → List Nat → Except E T) (cid : Cid) (v : T),
        lookupA (cacheCommit commitS self txn).2.cache cid = some v →
        (cacheGetOp getS decodeT (cacheCommit commitS self txn).2 cid).1 =
            Except.ok v ∧
        (cacheGetOp getS decodeT (cacheCommit commitS self txn).2
            cid).2.1.store = store' ∧
        (cacheGetOp getS decodeT (cacheCommit commitS self txn).2
            cid).2.2 = false)) := by
  constructor
  · intro e h
    simp [cacheCommit, h]
  · intro store' h
    have hcommit : cacheCommit commitS self txn =
        (Except.ok (),
         { self with
           store := store',
           cache := txn.cache.foldl
             (fun c kv => cacheSet self.capacity c kv.1 kv.2)
             self.cache }) := by
      simp [cacheCommit, h]
    refine ⟨hcommit, ?_⟩
    intro getS decodeT cid v hv
    rw [hcommit] at hv ⊢
    rw [cacheGetOp_hit getS decodeT _ cid v hv]
    exact ⟨rfl, rfl, rfl⟩

/-- A concrete store-commit function for the C10 witness. -/
def commitS0 : Nat → Unit → Except Unit Nat := fun s _ => Except.ok (s + 1)

/-- A concrete store-get function that always fails, demonstrating that a
cache hit never consults the store. -/
def getS0 : Nat → Cid → Except Unit (List Nat) := fun _ _ => Except.error ()

/-- A concrete decoder that always fails, unused on the hit path. -/
def decodeT0 : Cid → List Nat → Except Unit Nat := fun _ _ => Except.error ()

/-- A concrete cache state of capacity one for the C10 witness. -/
def cacheSelf0 : IpldCacheState Nat Nat := ⟨0, 1, []⟩

/-- A concrete typed transaction staging the value 42 for the C10
witness. -/
def txn0 : CTransaction Unit Nat := ⟨(), [(cidA, 42)]⟩

/-- Witness for C10 at a concrete commit followed by a cache-hit get. -/
theorem C10_cache_commit_witness :
    cacheCommit commitS0 cacheSelf0 txn0 =
      (Except.ok (), ⟨1, 1, [(cidA, 42)]⟩) ∧
    (cacheGetOp getS0 decodeT0 (cacheCommit commitS0 cacheSelf0 txn0).2
        cidA).1 = Except.ok 42 ∧
    (cacheGetOp getS0 decodeT0 (cacheCommit commitS0 cacheSelf0 txn0).2
        cidA).2.2 = false := by
  obtain ⟨-, h2⟩ :=
    C10_cache_commit Nat Unit Nat Unit commitS0 cacheSelf0 txn0
  obtain ⟨hc, hget⟩ := h2 1 rfl
  have hv : lookupA (cacheCommit commitS0 cacheSelf0 txn0).2.cache cidA =
      some 42 := by
    rw [hc]
    rfl
  obtain ⟨g1, g2, g3⟩ := hget getS0 decodeT0 cidA 42 hv
  refine ⟨?_, g1, g3⟩
  rw [hc]
  rfl
